import Mathlib

/-!
Verification of the tempo fragment-segmentation pipeline (`tempo/src/parse.rs`,
`src/ast.rs`).

The input string is modelled as a `List Char`; offsets count characters (the
Rust code uses byte offsets, but every delimiter character involved is ASCII,
so the two index models coincide up to the order-preserving byte/char
correspondence and none of the verified properties depend on the difference).

Rust panics (the `assert!` in `fill_in_text_fragments`, usize underflow in
`trim_delimiters_from_code_frags`, and out-of-bounds slicing in the item
builder) are modelled by `Option.none`; `Option.some` is the `Ok` result of
`parse_str` (the `Err` channel of the Rust `Result` is never populated).

Recursions that walk an index through the input carry an explicit fuel
argument; `input.length + 1` fuel is always sufficient because the index
strictly increases at every step, and all theorems are stated at that fuel
through the top-level wrappers.
-/

namespace Tempo

/-- The input text, one entry per character. -/
abbrev Str := List Char

/-- A range of characters in the text (`Span` in parse.rs). -/
structure Span where
  low_index : Nat
  high_index : Nat
deriving DecidableEq, Repr

/-- Fragment kind tag (`FragmentKind` in parse.rs). -/
inductive FragmentKind
  | Code
  | Text
deriving DecidableEq, Repr

/-- A fragment of the text (`Fragment` in parse.rs). -/
structure Fragment where
  kind : FragmentKind
  span : Span
deriving DecidableEq, Repr

/-- Modelled from the spec: the `ast` module used by `tempo/src/parse.rs` is
not among the provided sources (only the stale top-level `src/ast.rs` is, and
its `ItemKind` disagrees with the constructors used by parse.rs and its
tests).  The item union is taken from the spec — `Text(content)` or
`Code(source, printResult)` — which coincides exactly with the constructor
shapes `ItemKind::Text(..)` and `ItemKind::Code { source, print_result }`
built in parse.rs lines 67–73. -/
inductive ItemKind
  | Text (content : Str)
  | Code (source : Str) (print_result : Bool)
deriving DecidableEq, Repr

/-- The `ItemKind` actually declared in the provided top-level `src/ast.rs`
(lines 13–20): the `Code` variant carries only a string and no
`print_result` flag. -/
inductive ItemKindAstRs
  | Text (content : Str)
  | Code (source : Str)
deriving DecidableEq, Repr

/-- An item of the output document (`ast::Item`). -/
structure Item where
  kind : ItemKind
deriving DecidableEq, Repr

/-- The output document (`ast::Ast`). -/
structure Ast where
  items : List Item
deriving DecidableEq, Repr

/-- One step of the lazy `.*?%>` search of the regex `<%.*?%>` starting at
offset `k`: succeed at the first offset whose two characters are `%>`;
otherwise consume one non-newline character (in the Rust regex crate `.`
does not match a line break) and continue; fail at a newline or at the end
of the input.  Returns the offset of the `%` of the closing marker. -/
def findClose (s : Str) : Nat → Nat → Option Nat
  | 0, _ => none
  | fuel+1, k =>
    if k + 1 < s.length ∧ s.getD k ' ' = '%' ∧ s.getD (k+1) ' ' = '>' then
      some k
    else if k < s.length ∧ s.getD k ' ' ≠ '\n' then
      findClose s fuel (k+1)
    else
      none

/-- Attempt of the regex `<%.*?%>` anchored at offset `i`: requires the
opening marker `<%` at `i` and then the nearest closing marker; returns the
end offset (exclusive) of the whole match, i.e. `m.end()`. -/
def matchAt (s : Str) (i : Nat) : Option Nat :=
  if i + 1 < s.length ∧ s.getD i ' ' = '<' ∧ s.getD (i+1) ' ' = '%' then
    match findClose s (s.length + 1) (i + 2) with
    | some k => some (k + 2)
    | none => none
  else
    none

/-- Leftmost-first iteration of the regex over the input, starting the next
search at the end of the previous match (`find_iter` in parse.rs line 31). -/
def scanFrom (s : Str) : Nat → Nat → List Span
  | 0, _ => []
  | fuel+1, p =>
    if p < s.length then
      match matchAt s p with
      | some j => ⟨p, j⟩ :: scanFrom s fuel j
      | none => scanFrom s fuel (p+1)
    else
      []

/-- All spans matched by `CODE_BLOCK_REGEX = "<%.*?%>"` on the input, in
order (`code_block_regex.find_iter(input)`, parse.rs lines 31–36). -/
def findCodeSpans (s : Str) : List Span := scanFrom s (s.length + 1) 0

/-- The code spans wrapped as `Code` fragments (parse.rs lines 40–42). -/
def code_fragments_of (input : Str) : List Fragment :=
  (findCodeSpans input).map (fun sp => { kind := FragmentKind.Code, span := sp })

/-- The `flat_map` loop of `fill_in_text_fragments` (parse.rs lines 88–106):
walks the code fragments with a cursor, interpolating a `Text` fragment in
front of every code fragment that does not start at the cursor.  `none`
models the `assert!(code_fragment.span.low_index >= current_index)` panic.
Also returns the final cursor value. -/
def fill_in_aux (cursor : Nat) : List Fragment → Option (List Fragment × Nat)
  | [] => some ([], cursor)
  | f :: rest =>
    if f.span.low_index < cursor then none
    else
      match fill_in_aux f.span.high_index rest with
      | some (fs, c) =>
        if f.span.low_index = cursor then
          some (f :: fs, c)
        else
          some ({ kind := FragmentKind.Text,
                  span := ⟨cursor, f.span.low_index⟩ } :: f :: fs, c)
      | none => none

/-- `fill_in_text_fragments` (parse.rs lines 85–118): the cursor walk over
the code fragments followed by the trailing text fragment when the input is
non-empty and the cursor has not reached the end. -/
def fill_in_text_fragments (input : Str) (code_fragments : List Fragment) :
    Option (List Fragment) :=
  match fill_in_aux 0 code_fragments with
  | some (fs, c) =>
    if input ≠ [] ∧ c ≠ input.length then
      some (fs ++ [{ kind := FragmentKind.Text, span := ⟨c, input.length⟩ }])
    else
      some fs
  | none => none

/-- The fragment list before filtering (parse.rs lines 44–52): gap filling
when there is at least one code fragment, otherwise a single whole-input
`Text` fragment. -/
def gap_filled_fragments (input : Str) : Option (List Fragment) :=
  match code_fragments_of input with
  | [] => some [{ kind := FragmentKind.Text, span := ⟨0, input.length⟩ }]
  | f :: fs => fill_in_text_fragments input (f :: fs)

/-- `remove_empty_fragments` (parse.rs lines 120–122). -/
def remove_empty_fragments (fragments : List Fragment) : List Fragment :=
  fragments.filter (fun frag => frag.span.low_index != frag.span.high_index)

/-- The trimming of one fragment (body of the loop in
`trim_delimiters_from_code_frags`, parse.rs lines 126–132): code fragments
lose two characters on each side; `none` models the usize underflow panic of
`high_index -= 2`; text fragments are untouched. -/
def trim_frag (f : Fragment) : Option Fragment :=
  match f.kind with
  | FragmentKind.Text => some f
  | FragmentKind.Code =>
    if f.span.high_index < 2 then none
    else some { kind := FragmentKind.Code,
                span := ⟨f.span.low_index + 2, f.span.high_index - 2⟩ }

/-- `trim_delimiters_from_code_frags` (parse.rs lines 125–133). -/
def trim_delimiters_from_code_frags : List Fragment → Option (List Fragment)
  | [] => some []
  | f :: fs =>
    match trim_frag f, trim_delimiters_from_code_frags fs with
    | some g, some gs => some (g :: gs)
    | _, _ => none

/-- The fragments after filtering (parse.rs line 54). -/
def filtered_fragments (input : Str) : Option (List Fragment) :=
  match gap_filled_fragments input with
  | some fs => some (remove_empty_fragments fs)
  | none => none

/-- The fragments after trimming (parse.rs line 55). -/
def trimmed_fragments (input : Str) : Option (List Fragment) :=
  match filtered_fragments input with
  | some fs => trim_delimiters_from_code_frags fs
  | none => none

/-- `input[low..high]`, as a character list.  Only meaningful under
`low ≤ high ≤ input.length`; the caller checks those bounds. -/
def slice (s : Str) (low high : Nat) : Str := (s.drop low).take (high - low)

/-- The item-builder step for one fragment (parse.rs lines 57–75).  Note
that, exactly as in the source, the `=`-sigil test and strip happen before
the match on the fragment kind, so they apply to `Text` fragments as well;
`print_result` is simply unused in the `Text` arm.  `none` models the
out-of-bounds slicing panic of `input[frag.span.low_index..frag.span.high_index]`. -/
def build_item (input : Str) (frag : Fragment) : Option Item :=
  if frag.span.low_index ≤ frag.span.high_index ∧
      frag.span.high_index ≤ input.length then
    let frag_text := slice input frag.span.low_index frag.span.high_index
    let print_result := frag_text.head? = some '='
    let frag_text' := if frag_text.head? = some '=' then frag_text.drop 1 else frag_text
    match frag.kind with
    | FragmentKind.Text => some { kind := ItemKind.Text frag_text' }
    | FragmentKind.Code =>
      some { kind := ItemKind.Code frag_text' (decide print_result) }
  else
    none

/-- The item-builder map over all fragments (parse.rs lines 57–76). -/
def build_items (input : Str) : List Fragment → Option (List Item)
  | [] => some []
  | f :: fs =>
    match build_item input f, build_items input fs with
    | some i, some is => some (i :: is)
    | _, _ => none

/-- `parse_str` (parse.rs lines 28–79): the whole pipeline.  `some` is the
`Ok` result; `none` models a panic (the `Err` channel is never used by the
source). -/
def parse_str (input : Str) : Option Ast :=
  match trimmed_fragments input with
  | some frs =>
    match build_items input frs with
    | some items => some { items := items }
    | none => none
  | none => none

/-- Serialization of one item as described by the spec's idempotence
property: text verbatim, code re-wrapped as `<%` + source + `%>`. -/
def serialize_item (it : Item) : Str :=
  match it.kind with
  | ItemKind.Text c => c
  | ItemKind.Code src _ => '<' :: '%' :: (src ++ ['%', '>'])

/-- Serialization of a document: the items in order, concatenated. -/
def serialize (d : Ast) : Str := (d.items.map serialize_item).flatten

/-- Whether the text contains the closing marker `%>` as a substring. -/
def noCloseMarker (t : Str) : Prop :=
  ∀ k, k + 1 < t.length → ¬(t.getD k ' ' = '%' ∧ t.getD (k+1) ' ' = '>')

/-- The fragment chain property: the fragments are consecutive, the first
starting at `lo`, each starting where the previous one ended, the last
ending at `hi`.  This is the formal reading of "sorted ascending by `low`,
pairwise non-overlapping, union exactly `[lo, hi)`". -/
def covers : Nat → Nat → List Fragment → Prop
  | lo, hi, [] => lo = hi
  | lo, hi, f :: fs =>
    f.span.low_index = lo ∧ lo ≤ f.span.high_index ∧ covers f.span.high_index hi fs

/-- The scanner's output discipline: each span begins at or after the
current search position, each span is a match of the regex, and the next
search resumes at the span's end. -/
def SpanChain (s : Str) : Nat → List Span → Prop
  | _, [] => True
  | p, sp :: rest =>
    p ≤ sp.low_index ∧ matchAt s sp.low_index = some sp.high_index ∧
      SpanChain s sp.high_index rest

/-- The same discipline for the code-fragment list handed to the gap
filler. -/
def FragChain (s : Str) : Nat → List Fragment → Prop
  | _, [] => True
  | c, f :: rest =>
    c ≤ f.span.low_index ∧ f.kind = FragmentKind.Code ∧
      matchAt s f.span.low_index = some f.span.high_index ∧
      FragChain s f.span.high_index rest

/-- Every code fragment of the list carries a span matched by the regex. -/
def CodeOK (s : Str) (fs : List Fragment) : Prop :=
  ∀ f ∈ fs, f.kind = FragmentKind.Code →
    matchAt s f.span.low_index = some f.span.high_index

/-- How the delimiter trimmer relates an input fragment to its output: text
fragments are untouched, code fragments gain 2 on `low_index` and lose 2 on
`high_index`. -/
def trimRel (f g : Fragment) : Prop :=
  (f.kind = FragmentKind.Text → g = f) ∧
  (f.kind = FragmentKind.Code →
    g = { kind := FragmentKind.Code,
          span := ⟨f.span.low_index + 2, f.span.high_index - 2⟩ })

end Tempo

namespace Tempo

theorem findClose_sound (s : Str) :
    ∀ fuel k c, findClose s fuel k = some c →
      k ≤ c ∧ c + 1 < s.length ∧ s.getD c ' ' = '%' ∧ s.getD (c+1) ' ' = '>' ∧
      (∀ m, k ≤ m → m < c →
        s.getD m ' ' ≠ '\n' ∧
        ¬(m + 1 < s.length ∧ s.getD m ' ' = '%' ∧ s.getD (m+1) ' ' = '>')) := by
  intro fuel
  induction fuel with
  | zero => intro k c h; simp [findClose] at h
  | succ n ih =>
    intro k c h
    simp only [findClose] at h
    split at h
    · next hcl =>
      cases h
      exact ⟨le_refl _, hcl.1, hcl.2.1, hcl.2.2,
        fun m hm1 hm2 => absurd hm1 (by omega)⟩
    · next hncl =>
      split at h
      · next hstep =>
        obtain ⟨h1, h2, h3, h4, h5⟩ := ih (k+1) c h
        refine ⟨by omega, h2, h3, h4, ?_⟩
        intro m hm1 hm2
        rcases Nat.eq_or_lt_of_le hm1 with rfl | hlt
        · exact ⟨hstep.2, hncl⟩
        · exact h5 m (by omega) hm2
      · exact absurd h (by simp)

theorem matchAt_sound (s : Str) (i j : Nat) (h : matchAt s i = some j) :
    i + 4 ≤ j ∧ j ≤ s.length ∧
    s.getD i ' ' = '<' ∧ s.getD (i+1) ' ' = '%' ∧
    s.getD (j-2) ' ' = '%' ∧ s.getD (j-1) ' ' = '>' ∧
    (∀ m, i + 2 ≤ m → m + 2 < j →
      s.getD m ' ' ≠ '\n' ∧ ¬(s.getD m ' ' = '%' ∧ s.getD (m+1) ' ' = '>')) := by
  simp only [matchAt] at h
  split at h
  · next hop =>
    cases hfc : findClose s (s.length + 1) (i+2) with
    | none => rw [hfc] at h; cases h
    | some k =>
      rw [hfc] at h
      cases h
      obtain ⟨h1, h2, h3, h4, h5⟩ := findClose_sound s _ _ _ hfc
      have e2 : k + 2 - 2 = k := by omega
      have e1 : k + 2 - 1 = k + 1 := by omega
      rw [e2, e1]
      refine ⟨by omega, by omega, hop.2.1, hop.2.2, h3, h4, ?_⟩
      intro m hm1 hm2
      have hm := h5 m hm1 (by omega)
      refine ⟨hm.1, ?_⟩
      intro hcl
      exact hm.2 ⟨by omega, hcl.1, hcl.2⟩
  · exact absurd h (by simp)

theorem SpanChain.mono (s : Str) {p q : Nat} {l : List Span}
    (hpq : p ≤ q) (h : SpanChain s q l) : SpanChain s p l := by
  cases l with
  | nil => trivial
  | cons sp rest => exact ⟨le_trans hpq h.1, h.2.1, h.2.2⟩

theorem scanFrom_chain (s : Str) :
    ∀ fuel p, SpanChain s p (scanFrom s fuel p) := by
  intro fuel
  induction fuel with
  | zero => intro p; trivial
  | succ n ih =>
    intro p
    simp only [scanFrom]
    split
    · next hp =>
      cases hm : matchAt s p with
      | some j => exact ⟨le_refl _, hm, ih j⟩
      | none => exact SpanChain.mono s (by omega) (ih (p+1))
    · trivial

end Tempo

namespace Tempo

theorem matchAt_bounds (s : Str) (i j : Nat) (h : matchAt s i = some j) :
    i + 4 ≤ j ∧ j ≤ s.length :=
  ⟨(matchAt_sound s i j h).1, (matchAt_sound s i j h).2.1⟩

theorem fragChain_of_spanChain (s : Str) :
    ∀ (sps : List Span) (p : Nat), SpanChain s p sps →
      FragChain s p (sps.map (fun sp => { kind := FragmentKind.Code, span := sp })) := by
  intro sps
  induction sps with
  | nil => intro p _; trivial
  | cons sp rest ih =>
    intro p h
    simp only [SpanChain] at h
    exact ⟨h.1, rfl, h.2.1, ih _ h.2.2⟩

theorem code_fragments_chain (s : Str) : FragChain s 0 (code_fragments_of s) :=
  fragChain_of_spanChain s _ 0 (scanFrom_chain s _ 0)

theorem covers_le : ∀ (fs : List Fragment) (lo hi : Nat), covers lo hi fs → lo ≤ hi := by
  intro fs
  induction fs with
  | nil => intro lo hi h; exact le_of_eq h
  | cons f rest ih =>
    intro lo hi h
    simp only [covers] at h
    have := ih _ _ h.2.2
    omega

theorem covers_append : ∀ (xs ys : List Fragment) (a b c : Nat),
    covers a b xs → covers b c ys → covers a c (xs ++ ys) := by
  intro xs
  induction xs with
  | nil =>
    intro ys a b c h1 h2
    simp only [covers] at h1
    subst h1
    simpa using h2
  | cons f rest ih =>
    intro ys a b c h1 h2
    simp only [covers] at h1 ⊢
    exact ⟨h1.1, h1.2.1, ih ys _ b c h1.2.2 h2⟩

theorem covers_mem : ∀ (fs : List Fragment) (lo hi : Nat), covers lo hi fs →
    ∀ f ∈ fs, lo ≤ f.span.low_index ∧ f.span.low_index ≤ f.span.high_index ∧
      f.span.high_index ≤ hi := by
  intro fs
  induction fs with
  | nil => intro lo hi _ f hf; simp at hf
  | cons g rest ih =>
    intro lo hi h f hf
    simp only [covers] at h
    have htl := covers_le rest _ _ h.2.2
    rcases List.mem_cons.mp hf with rfl | hf'
    · exact ⟨by omega, by omega, by omega⟩
    · obtain ⟨a, b, c⟩ := ih _ _ h.2.2 f hf'
      exact ⟨by omega, b, c⟩

theorem covers_cover : ∀ (fs : List Fragment) (lo hi k : Nat), covers lo hi fs →
    lo ≤ k → k < hi → ∃ f ∈ fs, f.span.low_index ≤ k ∧ k < f.span.high_index := by
  intro fs
  induction fs with
  | nil => intro lo hi k h h1 h2; simp only [covers] at h; omega
  | cons g rest ih =>
    intro lo hi k h h1 h2
    simp only [covers] at h
    by_cases hk : k < g.span.high_index
    · exact ⟨g, List.mem_cons_self g rest, by omega, hk⟩
    · obtain ⟨f, hf, hfl, hfh⟩ := ih _ hi k h.2.2 (by omega) h2
      exact ⟨f, List.mem_cons_of_mem g hf, hfl, hfh⟩

theorem covers_chain' : ∀ (fs : List Fragment) (lo hi : Nat), covers lo hi fs →
    List.Chain' (fun f g => f.span.high_index ≤ g.span.low_index) fs := by
  intro fs
  induction fs with
  | nil => intro lo hi _; simp
  | cons f rest ih =>
    intro lo hi h
    simp only [covers] at h
    cases rest with
    | nil => simp
    | cons g rest' =>
      refine List.chain'_cons.mpr ⟨?_, ih _ _ h.2.2⟩
      have : g.span.low_index = f.span.high_index := h.2.2.1
      omega

theorem fill_in_aux_ok (s : Str) : ∀ (frs : List Fragment) (c : Nat),
    FragChain s c frs →
    ∃ out e, fill_in_aux c frs = some (out, e) ∧ covers c e out ∧
      CodeOK s out ∧ (e = c ∨ e ≤ s.length) := by
  intro frs
  induction frs with
  | nil =>
    intro c _
    refine ⟨[], c, rfl, rfl, ?_, Or.inl rfl⟩
    intro f hf
    simp at hf
  | cons f rest ih =>
    intro c hch
    simp only [FragChain] at hch
    obtain ⟨hc_le, hkind, hm, hch'⟩ := hch
    obtain ⟨hlen4, hlen⟩ := matchAt_bounds s _ _ hm
    obtain ⟨out, e, heq, hcov, hok, he⟩ := ih f.span.high_index hch'
    have h1 : ¬ f.span.low_index < c := by omega
    have helen : e ≤ s.length := by
      rcases he with rfl | h' <;> omega
    by_cases hc : f.span.low_index = c
    · refine ⟨f :: out, e, ?_, ?_, ?_, Or.inr helen⟩
      · simp [fill_in_aux, heq, h1, hc]
      · simp only [covers]
        exact ⟨hc, by omega, hcov⟩
      · intro g hg hgk
        rcases List.mem_cons.mp hg with rfl | hg'
        · exact hm
        · exact hok g hg' hgk
    · refine ⟨{ kind := FragmentKind.Text, span := ⟨c, f.span.low_index⟩ } :: f :: out,
        e, ?_, ?_, ?_, Or.inr helen⟩
      · simp [fill_in_aux, heq, h1, hc]
      · exact ⟨rfl, show c ≤ f.span.low_index by omega, rfl,
          show f.span.low_index ≤ f.span.high_index by omega, hcov⟩
      · intro g hg hgk
        rcases List.mem_cons.mp hg with rfl | hg'
        · simp at hgk
        · rcases List.mem_cons.mp hg' with rfl | hg''
          · exact hm
          · exact hok g hg'' hgk

theorem gap_filled_ok (s : Str) :
    ∃ fs, gap_filled_fragments s = some fs ∧ covers 0 s.length fs ∧ CodeOK s fs := by
  cases hcf : code_fragments_of s with
  | nil =>
    refine ⟨[{ kind := FragmentKind.Text, span := ⟨0, s.length⟩ }], ?_, ?_, ?_⟩
    · simp [gap_filled_fragments, hcf]
    · exact ⟨rfl, Nat.zero_le _, rfl⟩
    · intro f hf hk
      simp at hf
      subst hf
      simp at hk
  | cons f0 rest =>
    have hch : FragChain s 0 (f0 :: rest) := hcf ▸ code_fragments_chain s
    obtain ⟨out, e, heq, hcov, hok, he⟩ := fill_in_aux_ok s _ 0 hch
    simp only [FragChain] at hch
    obtain ⟨hm4, hmlen⟩ := matchAt_bounds s _ _ hch.2.2.1
    have hslen : 0 < s.length := by omega
    have hsne : s ≠ [] := by
      intro h
      rw [h] at hslen
      simp at hslen
    have helen : e ≤ s.length := by
      rcases he with rfl | h' <;> omega
    by_cases hc : e = s.length
    · refine ⟨out, ?_, ?_, hok⟩
      · simp [gap_filled_fragments, hcf, fill_in_text_fragments, heq, hc]
      · exact hc ▸ hcov
    · refine ⟨out ++ [{ kind := FragmentKind.Text, span := ⟨e, s.length⟩ }], ?_, ?_, ?_⟩
      · simp [gap_filled_fragments, hcf, fill_in_text_fragments, heq, hsne, hc]
      · exact covers_append _ _ 0 e s.length hcov ⟨rfl, helen, rfl⟩
      · intro g hg hgk
        rcases List.mem_append.mp hg with hg' | hg'
        · exact hok g hg' hgk
        · simp at hg'
          subst hg'
          simp at hgk

theorem covers_filter : ∀ (fs : List Fragment) (lo hi : Nat), covers lo hi fs →
    covers lo hi (remove_empty_fragments fs) := by
  intro fs
  induction fs with
  | nil => intro lo hi h; simpa [remove_empty_fragments] using h
  | cons f rest ih =>
    intro lo hi h
    obtain ⟨h1, h2, h3⟩ := h
    by_cases hf : f.span.low_index = f.span.high_index
    · have hfe : remove_empty_fragments (f :: rest) = remove_empty_fragments rest := by
        simp [remove_empty_fragments, List.filter_cons, hf]
      rw [hfe]
      have hlo : f.span.high_index = lo := by omega
      exact hlo ▸ ih _ _ h3
    · have hfe : remove_empty_fragments (f :: rest) =
          f :: remove_empty_fragments rest := by
        simp [remove_empty_fragments, List.filter_cons, hf]
      rw [hfe]
      exact ⟨h1, h2, ih _ _ h3⟩

theorem filtered_ok (s : Str) :
    ∃ fs, filtered_fragments s = some fs ∧ covers 0 s.length fs ∧
      CodeOK s fs ∧ ∀ f ∈ fs, f.span.low_index ≠ f.span.high_index := by
  obtain ⟨gs, hg, hcov, hok⟩ := gap_filled_ok s
  refine ⟨remove_empty_fragments gs, ?_, covers_filter _ _ _ hcov, ?_, ?_⟩
  · simp [filtered_fragments, hg]
  · intro f hf hk
    exact hok f (List.mem_of_mem_filter hf) hk
  · intro f hf
    have hp := List.of_mem_filter hf
    simpa using hp

theorem trim_ok : ∀ (fs : List Fragment),
    (∀ f ∈ fs, f.kind = FragmentKind.Code → 2 ≤ f.span.high_index) →
    ∃ gs, trim_delimiters_from_code_frags fs = some gs ∧
      List.Forall₂ trimRel fs gs := by
  intro fs
  induction fs with
  | nil => exact fun _ => ⟨[], rfl, List.Forall₂.nil⟩
  | cons f rest ih =>
    intro hall
    obtain ⟨gs, hgs, hrel⟩ := ih (fun g hg => hall g (List.mem_cons_of_mem f hg))
    cases hk : f.kind with
    | Text =>
      refine ⟨f :: gs, ?_, ?_⟩
      · simp [trim_delimiters_from_code_frags, trim_frag, hk, hgs]
      · refine List.Forall₂.cons ⟨fun _ => rfl, fun hc => ?_⟩ hrel
        rw [hk] at hc
        exact FragmentKind.noConfusion hc
    | Code =>
      have h2 : ¬ f.span.high_index < 2 := by
        have := hall f (List.mem_cons_self f rest) hk
        omega
      refine ⟨Fragment.mk FragmentKind.Code
          ⟨f.span.low_index + 2, f.span.high_index - 2⟩ :: gs, ?_, ?_⟩
      · simp [trim_delimiters_from_code_frags, trim_frag, hk, h2, hgs]
      · refine List.Forall₂.cons ⟨fun ht => ?_, fun _ => rfl⟩ hrel
        rw [hk] at ht
        exact FragmentKind.noConfusion ht

theorem forall₂_mem_right {α β : Type} {R : α → β → Prop} :
    ∀ {l1 : List α} {l2 : List β}, List.Forall₂ R l1 l2 →
      ∀ b ∈ l2, ∃ a ∈ l1, R a b := by
  intro l1 l2 h
  induction h with
  | nil => intro b hb; simp at hb
  | cons hr ht ih =>
    intro b hb
    rcases List.mem_cons.mp hb with rfl | hb'
    · exact ⟨_, List.mem_cons_self _ _, hr⟩
    · obtain ⟨a, ha, har⟩ := ih b hb'
      exact ⟨a, List.mem_cons_of_mem _ ha, har⟩

theorem build_items_ok (s : Str) : ∀ (fs : List Fragment),
    (∀ f ∈ fs, f.span.low_index ≤ f.span.high_index ∧
      f.span.high_index ≤ s.length) →
    ∃ items, build_items s fs = some items ∧
      List.Forall₂ (fun f it => build_item s f = some it) fs items := by
  intro fs
  induction fs with
  | nil => exact fun _ => ⟨[], rfl, List.Forall₂.nil⟩
  | cons f rest ih =>
    intro hall
    have hf := hall f (List.mem_cons_self f rest)
    obtain ⟨it, hit⟩ : ∃ it, build_item s f = some it := by
      unfold build_item
      rw [if_pos ⟨hf.1, hf.2⟩]
      cases f.kind <;> exact ⟨_, rfl⟩
    obtain ⟨items, hi, hrel⟩ := ih (fun g hg => hall g (List.mem_cons_of_mem f hg))
    exact ⟨it :: items, by simp [build_items, hit, hi], List.Forall₂.cons hit hrel⟩

theorem parse_str_anatomy (s : Str) :
    ∃ fs gs items, filtered_fragments s = some fs ∧
      trim_delimiters_from_code_frags fs = some gs ∧
      build_items s gs = some items ∧
      parse_str s = some ⟨items⟩ ∧
      covers 0 s.length fs ∧ CodeOK s fs ∧
      (∀ f ∈ fs, f.span.low_index ≠ f.span.high_index) ∧
      List.Forall₂ trimRel fs gs ∧
      List.Forall₂ (fun g it => build_item s g = some it) gs items := by
  obtain ⟨fs, hf, hcov, hok, hne⟩ := filtered_ok s
  have h2 : ∀ f ∈ fs, f.kind = FragmentKind.Code → 2 ≤ f.span.high_index := by
    intro f hf' hk
    have := matchAt_bounds s _ _ (hok f hf' hk)
    omega
  obtain ⟨gs, hgs, hrel⟩ := trim_ok fs h2
  have hbounds : ∀ g ∈ gs, g.span.low_index ≤ g.span.high_index ∧
      g.span.high_index ≤ s.length := by
    intro g hg
    obtain ⟨f, hf', hr⟩ := forall₂_mem_right hrel g hg
    obtain ⟨hb1, hb2, hb3⟩ := covers_mem _ _ _ hcov f hf'
    cases hk : f.kind with
    | Text => rw [hr.1 hk]; exact ⟨hb2, hb3⟩
    | Code =>
      have hm := matchAt_bounds s _ _ (hok f hf' hk)
      rw [hr.2 hk]
      exact ⟨show f.span.low_index + 2 ≤ f.span.high_index - 2 by omega,
        show f.span.high_index - 2 ≤ s.length by omega⟩
  obtain ⟨items, hitems, hbrel⟩ := build_items_ok s gs hbounds
  refine ⟨fs, gs, items, hf, hgs, hitems, ?_, hcov, hok, hne, hrel, hbrel⟩
  simp [parse_str, trimmed_fragments, hf, hgs, hitems]

theorem slice_self (s : Str) (a : Nat) : slice s a a = [] := by
  simp [slice]

theorem slice_whole (s : Str) : slice s 0 s.length = s := by
  simp [slice]

theorem slice_split (s : Str) (lo mid hi : Nat) (h1 : lo ≤ mid) (h2 : mid ≤ hi) :
    slice s lo hi = slice s lo mid ++ slice s mid hi := by
  unfold slice
  have e : hi - lo = (mid - lo) + (hi - mid) := by omega
  rw [e, List.take_add, List.drop_drop]
  have e2 : lo + (mid - lo) = mid := by omega
  rw [e2]

theorem slice_length (s : Str) (lo hi : Nat) (h1 : lo ≤ hi) (h2 : hi ≤ s.length) :
    (slice s lo hi).length = hi - lo := by
  simp [slice]
  omega

theorem slice_getD (s : Str) (lo hi k : Nat) (hk : k < hi - lo) :
    (slice s lo hi).getD k ' ' = s.getD (lo + k) ' ' := by
  show (((s.drop lo).take (hi - lo)).get? k).getD ' ' = (s.get? (lo + k)).getD ' '
  rw [List.get?_take hk, List.get?_drop]

theorem slice_cons (s : Str) (lo hi : Nat) (h1 : lo < hi) (h2 : lo < s.length) :
    slice s lo hi = s.getD lo ' ' :: slice s (lo+1) hi := by
  unfold slice
  rw [List.drop_eq_get_cons h2]
  have e : hi - lo = (hi - (lo+1)) + 1 := by omega
  rw [e, List.take_succ_cons]
  congr 1
  exact (List.getD_eq_get s ' ' h2).symm

theorem slice_pair (s : Str) (a : Nat) (h : a + 1 < s.length) :
    slice s a (a+2) = [s.getD a ' ', s.getD (a+1) ' '] := by
  rw [slice_cons s a (a+2) (by omega) (by omega),
      slice_cons s (a+1) (a+2) (by omega) h, slice_self]

theorem slice_code_decomp (s : Str) (l h : Nat) (h4 : l + 4 ≤ h)
    (hlen : h ≤ s.length) :
    slice s l h = s.getD l ' ' :: s.getD (l+1) ' ' ::
      (slice s (l+2) (h-2) ++ [s.getD (h-2) ' ', s.getD (h-1) ' ']) := by
  rw [slice_split s l (l+2) h (by omega) (by omega),
      slice_split s (l+2) (h-2) h (by omega) (by omega),
      slice_pair s l (by omega)]
  have e : h - 2 + 2 = h := by omega
  have e1 : h - 2 + 1 = h - 1 := by omega
  have hp := slice_pair s (h-2) (by omega)
  rw [e, e1] at hp
  rw [hp]
  simp

theorem noCloseMarker_drop_one (t : Str) (h : noCloseMarker t) :
    noCloseMarker (t.drop 1) := by
  intro k hk
  have hlen : (t.drop 1).length = t.length - 1 := by simp
  have h1 : (t.drop 1).getD k ' ' = t.getD (1 + k) ' ' := by
    show ((t.drop 1).get? k).getD ' ' = (t.get? (1 + k)).getD ' '
    rw [List.get?_drop]
  have h2 : (t.drop 1).getD (k+1) ' ' = t.getD (1 + (k+1)) ' ' := by
    show ((t.drop 1).get? (k+1)).getD ' ' = (t.get? (1 + (k+1))).getD ' '
    rw [List.get?_drop]
  rw [h1, h2]
  exact h (1 + k) (by omega)

theorem noCloseMarker_inner (s : Str) (l h : Nat) (hm : matchAt s l = some h) :
    noCloseMarker (slice s (l+2) (h-2)) := by
  obtain ⟨h4, hlen, _, _, _, _, hin⟩ := matchAt_sound s l h hm
  intro k hk
  rw [slice_length s _ _ (by omega) (by omega)] at hk
  rw [slice_getD s _ _ k (by omega), slice_getD s _ _ (k+1) (by omega)]
  intro hcl
  have hm2 := hin (l+2+k) (by omega) (by omega)
  exact hm2.2 hcl

theorem serialize_items_eq_slices (s : Str) :
    ∀ (fs gs : List Fragment) (items : List Item),
      List.Forall₂ trimRel fs gs →
      List.Forall₂ (fun g it => build_item s g = some it) gs items →
      CodeOK s fs →
      (∀ g ∈ gs, (slice s g.span.low_index g.span.high_index).head? ≠ some '=') →
      items.map serialize_item =
        fs.map (fun f => slice s f.span.low_index f.span.high_index) := by
  intro fs
  induction fs with
  | nil =>
    intro gs items h1 h2 _ _
    cases h1
    cases h2
    rfl
  | cons f fs2 ih =>
    intro gs items h1 h2 hok hns
    cases h1 with
    | cons hfg h1t =>
      rename_i g gs2
      cases h2 with
      | cons hgi h2t =>
        rename_i it items2
        have hokt : CodeOK s fs2 := fun f2 hf2 => hok f2 (List.mem_cons_of_mem f hf2)
        have hnst : ∀ g2 ∈ gs2,
            (slice s g2.span.low_index g2.span.high_index).head? ≠ some '=' :=
          fun g2 hg2 => hns g2 (List.mem_cons_of_mem g hg2)
        have hns0 := hns g (List.mem_cons_self g gs2)
        have helem : serialize_item it = slice s f.span.low_index f.span.high_index := by
          cases hk : f.kind with
          | Text =>
            have hg : g = f := hfg.1 hk
            subst hg
            by_cases hb : g.span.low_index ≤ g.span.high_index ∧
                g.span.high_index ≤ s.length
            · have hbv : build_item s g = some (Item.mk (ItemKind.Text
                  (slice s g.span.low_index g.span.high_index))) := by
                simp [build_item, hb, hns0, hk]
              rw [hbv] at hgi
              cases hgi
              rfl
            · rw [build_item, if_neg hb] at hgi
              cases hgi
          | Code =>
            have hg : g = Fragment.mk FragmentKind.Code
                ⟨f.span.low_index + 2, f.span.high_index - 2⟩ := hfg.2 hk
            have hm := hok f (List.mem_cons_self f fs2) hk
            obtain ⟨h4, hlen, hc1, hc2, hc3, hc4, _⟩ := matchAt_sound s _ _ hm
            have hns1 : (slice s (f.span.low_index + 2)
                (f.span.high_index - 2)).head? ≠ some '=' := by
              have := hns0
              rw [hg] at this
              exact this
            have hbv : build_item s g = some (Item.mk (ItemKind.Code
                (slice s (f.span.low_index + 2) (f.span.high_index - 2)) false)) := by
              rw [hg]
              simp [build_item, hns1]
              omega
            rw [hbv] at hgi
            cases hgi
            show '<' :: '%' :: (slice s (f.span.low_index + 2)
                (f.span.high_index - 2) ++ ['%', '>']) = _
            rw [slice_code_decomp s f.span.low_index f.span.high_index h4 hlen,
              hc1, hc2, hc3, hc4]
        simp only [List.map_cons, helem]
        rw [ih gs2 items2 h1t h2t hokt hnst]

theorem slices_flatten (s : Str) : ∀ (fs : List Fragment) (lo hi : Nat),
    covers lo hi fs →
    (fs.map (fun f => slice s f.span.low_index f.span.high_index)).flatten =
      slice s lo hi := by
  intro fs
  induction fs with
  | nil =>
    intro lo hi h
    simp only [covers] at h
    subst h
    simp [slice_self]
  | cons f rest ih =>
    intro lo hi h
    obtain ⟨h1, h2, h3⟩ := h
    have hfh : f.span.high_index ≤ hi := covers_le _ _ _ h3
    show slice s f.span.low_index f.span.high_index ++ _ = _
    rw [ih _ _ h3, h1]
    exact (slice_split s lo f.span.high_index hi (h1 ▸ h2) hfh).symm

theorem spanChain_mem (s : Str) : ∀ (l : List Span) (p : Nat), SpanChain s p l →
    ∀ sp ∈ l, matchAt s sp.low_index = some sp.high_index := by
  intro l
  induction l with
  | nil => intro p _ sp hsp; simp at hsp
  | cons sp0 rest ih =>
    intro p h sp hsp
    simp only [SpanChain] at h
    rcases List.mem_cons.mp hsp with rfl | hsp'
    · exact h.2.1
    · exact ih _ h.2.2 sp hsp'

theorem spanChain_chain' (s : Str) : ∀ (l : List Span) (p : Nat), SpanChain s p l →
    List.Chain' (fun a b => a.high_index ≤ b.low_index) l := by
  intro l
  induction l with
  | nil => intro p _; simp
  | cons sp0 rest ih =>
    intro p h
    simp only [SpanChain] at h
    cases rest with
    | nil => simp
    | cons sp1 rest2 =>
      refine List.chain'_cons.mpr ⟨h.2.2.1, ih _ h.2.2⟩

theorem scanFrom_gap (s : Str) : ∀ (fuel p i : Nat), p ≤ i → i < s.length →
    s.length + 1 ≤ fuel + p →
    (∀ sp ∈ scanFrom s fuel p, i < sp.low_index ∨ sp.high_index ≤ i) →
    matchAt s i = none := by
  intro fuel
  induction fuel with
  | zero => intro p i h1 h2 h3 _; omega
  | succ n ih =>
    intro p i h1 h2 h3 hgap
    by_cases hp : p < s.length
    · cases hm : matchAt s p with
      | some j =>
        have hsc : scanFrom s (n+1) p = ⟨p, j⟩ :: scanFrom s n j := by
          simp [scanFrom, hp, hm]
        rw [hsc] at hgap
        have hsp : i < p ∨ j ≤ i := hgap ⟨p, j⟩ (List.mem_cons_self _ _)
        have hj4 := matchAt_bounds s p j hm
        exact ih j i (by omega) h2 (by omega)
          (fun sp hsp2 => hgap sp (List.mem_cons_of_mem _ hsp2))
      | none =>
        by_cases hip : i = p
        · exact hip ▸ hm
        · have hsc : scanFrom s (n+1) p = scanFrom s n (p+1) := by
            simp [scanFrom, hp, hm]
          rw [hsc] at hgap
          exact ih (p+1) i (by omega) h2 (by omega) hgap
    · omega

theorem findCodeSpans_gap (s : Str) (i : Nat) (hi : i < s.length)
    (hgap : ∀ sp ∈ findCodeSpans s, i < sp.low_index ∨ sp.high_index ≤ i) :
    matchAt s i = none :=
  scanFrom_gap s (s.length + 1) 0 i (Nat.zero_le i) hi (by omega) hgap

theorem forall₂_imp_mem {α β : Type} {R S : α → β → Prop} :
    ∀ {l1 : List α} {l2 : List β}, List.Forall₂ R l1 l2 →
      (∀ a ∈ l1, ∀ b, R a b → S a b) → List.Forall₂ S l1 l2 := by
  intro l1 l2 h
  induction h with
  | nil => intro _; exact List.Forall₂.nil
  | cons hr ht ih =>
    intro hmem
    exact List.Forall₂.cons (hmem _ (List.mem_cons_self _ _) _ hr)
      (ih fun a ha b => hmem a (List.mem_cons_of_mem _ ha) b)

theorem build_item_code_shape (s : Str) (g : Fragment) (it : Item)
    (hb : build_item s g = some it) (src : Str) (pr : Bool)
    (hk : it.kind = ItemKind.Code src pr) :
    g.kind = FragmentKind.Code ∧
    (src = slice s g.span.low_index g.span.high_index ∨
     src = (slice s g.span.low_index g.span.high_index).drop 1) := by
  by_cases hbnd : g.span.low_index ≤ g.span.high_index ∧ g.span.high_index ≤ s.length
  · cases hgk : g.kind with
    | Text =>
      by_cases hh : (slice s g.span.low_index g.span.high_index).head? = some '='
      · have hbv : build_item s g = some (Item.mk (ItemKind.Text
            ((slice s g.span.low_index g.span.high_index).drop 1))) := by
          simp [build_item, hbnd, hgk, hh]
        rw [hbv] at hb
        cases hb
        simp at hk
      · have hbv : build_item s g = some (Item.mk (ItemKind.Text
            (slice s g.span.low_index g.span.high_index))) := by
          simp [build_item, hbnd, hgk, hh]
        rw [hbv] at hb
        cases hb
        simp at hk
    | Code =>
      by_cases hh : (slice s g.span.low_index g.span.high_index).head? = some '='
      · have hbv : build_item s g = some (Item.mk (ItemKind.Code
            ((slice s g.span.low_index g.span.high_index).drop 1) true)) := by
          simp [build_item, hbnd, hgk, hh]
        rw [hbv] at hb
        cases hb
        simp only [ItemKind.Code.injEq] at hk
        exact ⟨rfl, Or.inr hk.1.symm⟩
      · have hbv : build_item s g = some (Item.mk (ItemKind.Code
            (slice s g.span.low_index g.span.high_index) false)) := by
          simp [build_item, hbnd, hgk, hh]
        rw [hbv] at hb
        cases hb
        simp only [ItemKind.Code.injEq] at hk
        exact ⟨rfl, Or.inl hk.1.symm⟩
  · rw [build_item, if_neg hbnd] at hb
    cases hb

/-- Claim C1 (refuted by the code — evaluation at the failing input): for the
input `"=abc"`, which contains no delimiter marker at all, `parse_str` does
NOT return the input verbatim: the item-builder computes the `=`-sigil strip
before matching on the fragment kind (parse.rs lines 60–65), so the leading
`=` of a Text fragment is silently removed and the result is `Text "abc"`. -/
theorem claim1_text_not_verbatim :
    findCodeSpans "=abc".data = [] ∧
    parse_str "=abc".data = some ⟨[⟨ItemKind.Text "abc".data⟩]⟩ := by decide

/-- Claim C2, counterexample: the input `"<%a\nb%>"` carries an opening
marker at offsets 0–1 and a closing marker at offsets 5–6 with a line break
between them, yet the scanner finds no region at all (Rust's `.` does not
match `\n`) and the whole input becomes a single Text item. -/
theorem claim2_counterexample :
    "<%a\nb%>".data.getD 0 ' ' = '<' ∧ "<%a\nb%>".data.getD 1 ' ' = '%' ∧
    "<%a\nb%>".data.getD 5 ' ' = '%' ∧ "<%a\nb%>".data.getD 6 ' ' = '>' ∧
    findCodeSpans "<%a\nb%>".data = [] ∧
    parse_str "<%a\nb%>".data =
      some ⟨[⟨ItemKind.Text "<%a\nb%>".data⟩]⟩ := by decide

/-- Claim C2 as amended: every region found by the Scanner has the form
"opening marker `<%`, then characters none of which is a line break,
shortest possible match (no closing marker strictly inside), closing marker
`%>`"; the found regions are ordered and non-overlapping; and at every
offset lying outside all found regions the regex does not match at all (in
particular a delimiter pair whose inner text contains a line break is not
recognized). -/
theorem claim2_scanner_spec (s : Str) :
    (∀ sp ∈ findCodeSpans s,
      sp.low_index + 4 ≤ sp.high_index ∧ sp.high_index ≤ s.length ∧
      s.getD sp.low_index ' ' = '<' ∧ s.getD (sp.low_index + 1) ' ' = '%' ∧
      s.getD (sp.high_index - 2) ' ' = '%' ∧ s.getD (sp.high_index - 1) ' ' = '>' ∧
      (∀ m, sp.low_index + 2 ≤ m → m + 2 < sp.high_index →
        s.getD m ' ' ≠ '\n' ∧ ¬(s.getD m ' ' = '%' ∧ s.getD (m+1) ' ' = '>'))) ∧
    List.Chain' (fun a b => a.high_index ≤ b.low_index) (findCodeSpans s) ∧
    (∀ i, i < s.length →
      (∀ sp ∈ findCodeSpans s, i < sp.low_index ∨ sp.high_index ≤ i) →
      matchAt s i = none) := by
  refine ⟨?_, ?_, ?_⟩
  · intro sp hsp
    exact matchAt_sound s _ _ (spanChain_mem s _ 0 (scanFrom_chain s _ 0) sp hsp)
  · exact spanChain_chain' s _ 0 (scanFrom_chain s _ 0)
  · intro i hi hgap
    exact findCodeSpans_gap s i hi hgap

/-- Claim C2 witness: the amended scanner specification evaluated on the
concrete input `"a<%x%>b"`, whose only span is `[1, 6)`: offset 0 lies in a
gap and the regex does not match there, and the found span is at least 4
characters wide. -/
theorem claim2_scanner_spec_witness :
    matchAt "a<%x%>b".data 0 = none ∧ (1 : Nat) + 4 ≤ 6 :=
  ⟨(claim2_scanner_spec "a<%x%>b".data).2.2 0 (by decide) (by decide),
   ((claim2_scanner_spec "a<%x%>b".data).1 ⟨1, 6⟩ (by decide)).1⟩

/-- Claim C3: parsing never fails: for every input the whole pipeline runs
to completion — the gap-filler assertion holds, the trimmer never
underflows, the item-builder slices are always in bounds — and `parse_str`
returns a document (the `Ok` branch; the `Err` channel is never populated,
and inputs with unbalanced markers simply yield no scanner match). -/
theorem claim3_parse_always_succeeds (s : Str) : ∃ d, parse_str s = some d := by
  obtain ⟨fs, gs, items, _, _, _, hps, _⟩ := parse_str_anatomy s
  exact ⟨⟨items⟩, hps⟩

/-- Claim C4: the fragment sequence produced by the gap filler (before
filtering, including the single whole-input Text fragment emitted when
there are no code fragments) is a chain of consecutive intervals covering
exactly `[0, inputLength)`: every fragment is within bounds, every position
below the input length is covered by some fragment, and consecutive
fragments are ordered and non-overlapping. -/
theorem claim4_gap_filler_tiling (s : Str) :
    ∃ fs, gap_filled_fragments s = some fs ∧ covers 0 s.length fs ∧
      (∀ f ∈ fs, f.span.low_index ≤ f.span.high_index ∧
        f.span.high_index ≤ s.length) ∧
      (∀ k, k < s.length → ∃ f ∈ fs, f.span.low_index ≤ k ∧
        k < f.span.high_index) ∧
      List.Chain' (fun f g => f.span.high_index ≤ g.span.low_index) fs := by
  obtain ⟨fs, hg, hcov, _⟩ := gap_filled_ok s
  refine ⟨fs, hg, hcov, ?_, ?_, covers_chain' _ _ _ hcov⟩
  · intro f hf
    exact ⟨(covers_mem _ _ _ hcov f hf).2.1, (covers_mem _ _ _ hcov f hf).2.2⟩
  · intro k hk
    exact covers_cover _ _ _ k hcov (Nat.zero_le k) hk

/-- Claim C5, counterexample: re-serializing is not an inverse of parsing
in general: `"<%= x %>"` parses to a print-mode Code item with source
`" x "`; its serialization `"<% x %>"` re-parses to a Code item with
`print_result = false`, a different document. -/
theorem claim5_counterexample :
    parse_str "<%= x %>".data = some ⟨[⟨ItemKind.Code " x ".data true⟩]⟩ ∧
    serialize ⟨[⟨ItemKind.Code " x ".data true⟩]⟩ = "<% x %>".data ∧
    parse_str "<% x %>".data = some ⟨[⟨ItemKind.Code " x ".data false⟩]⟩ ∧
    Ast.mk [⟨ItemKind.Code " x ".data true⟩] ≠
      Ast.mk [⟨ItemKind.Code " x ".data false⟩] := by decide

/-- Claim C5 as amended: idempotence holds exactly on the inputs where the
item builder strips no `=` sigil (no trimmed fragment's text begins with
`=`): there re-serialization reproduces the input verbatim, so re-parsing
returns the same document.  (The counterexample shows it fails once a
print-mode sigil — or a Text fragment starting with `=` — is stripped.) -/
theorem claim5_roundtrip (s : Str) (gs : List Fragment) (d : Ast)
    (hts : trimmed_fragments s = some gs)
    (hns : ∀ g ∈ gs,
      (slice s g.span.low_index g.span.high_index).head? ≠ some '=')
    (hp : parse_str s = some d) :
    serialize d = s ∧ parse_str (serialize d) = some d := by
  obtain ⟨fs, gs2, items, hf, hgs2, hitems, hps, hcov, hok, hne, hrel, hbrel⟩ :=
    parse_str_anatomy s
  have htr : trimmed_fragments s = some gs2 := by
    simp [trimmed_fragments, hf, hgs2]
  rw [htr] at hts
  cases hts
  rw [hps] at hp
  cases hp
  have hser : serialize ⟨items⟩ = s := by
    unfold serialize
    show (items.map serialize_item).flatten = s
    rw [serialize_items_eq_slices s fs _ items hrel hbrel hok hns,
      slices_flatten s fs 0 s.length hcov]
    exact slice_whole s
  exact ⟨hser, by rw [hser]; exact hps⟩

/-- Claim C5 witness: the amended round-trip property evaluated on the
concrete input `"a<%b%>c"` (no sigil anywhere): serialization reproduces
the input and re-parsing returns the same document. -/
theorem claim5_roundtrip_witness :
    serialize ⟨[⟨ItemKind.Text "a".data⟩, ⟨ItemKind.Code "b".data false⟩,
      ⟨ItemKind.Text "c".data⟩]⟩ = "a<%b%>c".data ∧
    parse_str (serialize ⟨[⟨ItemKind.Text "a".data⟩,
      ⟨ItemKind.Code "b".data false⟩, ⟨ItemKind.Text "c".data⟩]⟩) =
      some ⟨[⟨ItemKind.Text "a".data⟩, ⟨ItemKind.Code "b".data false⟩,
        ⟨ItemKind.Text "c".data⟩]⟩ :=
  claim5_roundtrip "a<%b%>c".data
    [⟨FragmentKind.Text, ⟨0, 1⟩⟩, ⟨FragmentKind.Code, ⟨3, 4⟩⟩,
      ⟨FragmentKind.Text, ⟨6, 7⟩⟩]
    ⟨[⟨ItemKind.Text "a".data⟩, ⟨ItemKind.Code "b".data false⟩,
      ⟨ItemKind.Text "c".data⟩]⟩
    (by decide) (by decide) (by decide)

/-- Claim C6: the print sigil: parsing `"<%= x %>"` yields one Code item
with `print_result = true` and source `" x "` (the trimmed content minus
exactly the leading `=`, whitespace preserved); and in general the item
builder maps a Code fragment whose text begins with `=` to a Code item with
`print_result = true` and exactly one character stripped, and a Code
fragment whose text does not begin with `=` to a Code item with
`print_result = false` and the text unchanged. -/
theorem claim6_print_sigil :
    (parse_str "<%= x %>".data =
      some ⟨[⟨ItemKind.Code " x ".data true⟩]⟩) ∧
    ∀ (input : Str) (f : Fragment), f.kind = FragmentKind.Code →
      f.span.low_index ≤ f.span.high_index →
      f.span.high_index ≤ input.length →
      (((slice input f.span.low_index f.span.high_index).head? = some '=' →
        build_item input f = some (Item.mk (ItemKind.Code
          ((slice input f.span.low_index f.span.high_index).drop 1) true))) ∧
       ((slice input f.span.low_index f.span.high_index).head? ≠ some '=' →
        build_item input f = some (Item.mk (ItemKind.Code
          (slice input f.span.low_index f.span.high_index) false)))) := by
  refine ⟨by decide, ?_⟩
  intro input f hk h1 h2
  constructor
  · intro hh
    simp [build_item, hk, h1, h2, hh]
  · intro hh
    simp [build_item, hk, h1, h2, hh]

/-- Claim C6 witness: the general sigil property evaluated on the concrete
fragment `[2, 4)` of `"<%=a%>"`, whose text is `"=a"`. -/
theorem claim6_print_sigil_witness :
    build_item "<%=a%>".data (Fragment.mk FragmentKind.Code ⟨2, 4⟩) =
      some (Item.mk (ItemKind.Code
        ((slice "<%=a%>".data 2 4).drop 1) true)) :=
  (claim6_print_sigil.2 "<%=a%>".data (Fragment.mk FragmentKind.Code ⟨2, 4⟩)
    rfl (by decide) (by decide)).1 (by decide)

/-- Claim C7 (the declared AST type contradicts the parser): `parse_str`
produces items of exactly the two shapes used by parse.rs and its tests —
`Text(content)` and `Code(source, print_result)` — as the evaluation at
`"<% hello %>"` shows; but the `ItemKind` actually declared in the provided
`src/ast.rs` carries only a single string in its `Code` variant: every one
of its values is a `Text` or `Code` holding one string and nothing else, so
it cannot represent the `print_result` flag the parser constructs. -/
theorem claim7_item_union :
    parse_str "<% hello %>".data =
      some ⟨[⟨ItemKind.Code " hello ".data false⟩]⟩ ∧
    (∀ k : ItemKind,
      (∃ c, k = ItemKind.Text c) ∨ ∃ src pr, k = ItemKind.Code src pr) ∧
    (∀ k : ItemKindAstRs,
      ∃ c, k = ItemKindAstRs.Text c ∨ k = ItemKindAstRs.Code c) := by
  refine ⟨by decide, ?_, ?_⟩
  · intro k
    cases k with
    | Text c => exact Or.inl ⟨c, rfl⟩
    | Code a b => exact Or.inr ⟨a, b, rfl⟩
  · intro k
    cases k with
    | Text c => exact ⟨c, Or.inl rfl⟩
    | Code c => exact ⟨c, Or.inr rfl⟩

/-- Claim C8: the empty input parses to the empty item sequence: with zero
code fragments the gap filler emits the single whole-input Text fragment of
zero length, and the region filter removes it because its bounds are
equal. -/
theorem claim8_empty_input :
    parse_str [] = some ⟨[]⟩ ∧
    gap_filled_fragments [] = some [⟨FragmentKind.Text, ⟨0, 0⟩⟩] ∧
    remove_empty_fragments [⟨FragmentKind.Text, ⟨0, 0⟩⟩] = [] := by decide

/-- Claim C9: the delimiter trimmer's arithmetic is safe: on every input
the trimmer succeeds (no `usize` underflow), because every code fragment
reaching it spans at least 4 characters; each code fragment's bounds move
to `low + 2` and `high - 2` with `low ≤ high` still holding afterwards, and
text fragments pass through untouched. -/
theorem claim9_trimmer_safety (s : Str) :
    ∃ fs gs, filtered_fragments s = some fs ∧
      trim_delimiters_from_code_frags fs = some gs ∧
      (∀ f ∈ fs, f.kind = FragmentKind.Code →
        f.span.low_index + 4 ≤ f.span.high_index) ∧
      List.Forall₂ (fun f g =>
        (f.kind = FragmentKind.Text → g = f) ∧
        (f.kind = FragmentKind.Code →
          g.span.low_index = f.span.low_index + 2 ∧
          g.span.high_index = f.span.high_index - 2 ∧
          2 ≤ f.span.high_index ∧
          g.span.low_index ≤ g.span.high_index)) fs gs := by
  obtain ⟨fs, gs, items, hf, hgs, hitems, hps, hcov, hok, hne, hrel, hbrel⟩ :=
    parse_str_anatomy s
  have h4 : ∀ f ∈ fs, f.kind = FragmentKind.Code →
      f.span.low_index + 4 ≤ f.span.high_index :=
    fun f hf2 hk => (matchAt_bounds s _ _ (hok f hf2 hk)).1
  refine ⟨fs, gs, hf, hgs, h4, ?_⟩
  refine forall₂_imp_mem hrel ?_
  intro f hf2 g hr
  refine ⟨hr.1, fun hk => ?_⟩
  have hb := h4 f hf2 hk
  rw [hr.2 hk]
  exact ⟨rfl, rfl, by omega,
    show f.span.low_index + 2 ≤ f.span.high_index - 2 by omega⟩

/-- Claim C10: no Code item produced by `parse_str` contains the closing
marker `%>` in its source: the lazy match ends each code region at the
first closing marker, so the region's inner text — and hence the extracted
(possibly sigil-stripped) source — has no `%>` substring. -/
theorem claim10_no_close_marker (s : Str) (d : Ast)
    (hp : parse_str s = some d) :
    ∀ it ∈ d.items, ∀ (src : Str) (pr : Bool),
      it.kind = ItemKind.Code src pr → noCloseMarker src := by
  obtain ⟨fs, gs, items, hf, hgs, hitems, hps, hcov, hok, hne, hrel, hbrel⟩ :=
    parse_str_anatomy s
  rw [hps] at hp
  cases hp
  intro it hit src pr hk
  obtain ⟨g, hg, hbi⟩ := forall₂_mem_right hbrel it hit
  obtain ⟨f, hfmem, hfr⟩ := forall₂_mem_right hrel g hg
  obtain ⟨hgk, hsrc⟩ := build_item_code_shape s g it hbi src pr hk
  cases hfk : f.kind with
  | Text =>
    have hgf : g = f := hfr.1 hfk
    rw [hgf, hfk] at hgk
    exact absurd hgk (by simp)
  | Code =>
    have hg2 : g = Fragment.mk FragmentKind.Code
        ⟨f.span.low_index + 2, f.span.high_index - 2⟩ := hfr.2 hfk
    have hm := hok f hfmem hfk
    have hnc := noCloseMarker_inner s _ _ hm
    rw [hg2] at hsrc
    rcases hsrc with rfl | rfl
    · exact hnc
    · exact noCloseMarker_drop_one _ hnc

/-- Claim C10 witness: the no-closing-marker property of code sources
evaluated on the concrete input `"<%ab%>"`, whose single Code item has
source `"ab"`. -/
theorem claim10_no_close_marker_witness : noCloseMarker "ab".data :=
  claim10_no_close_marker "<%ab%>".data
    ⟨[⟨ItemKind.Code "ab".data false⟩]⟩ (by decide)
    (Item.mk (ItemKind.Code "ab".data false)) (by decide)
    "ab".data false rfl

end Tempo
